import Mathlib

/-!
Verification of the FerroFlux2 graph interaction and routing engine.

The definitions below are a shallow embedding of the TypeScript source:
* the routing utilities (`findPortPosition`, `getSmartOrthogonalPath` and its
  helpers) from the routing module, and
* the Canvas pointer/keyboard handlers (`onWheel` zoom branch, `onPortMouseUp`,
  `onMouseMove` drag branch, `onNodeMouseDown` bring-to-front, `onDelete`,
  `onKeyDown`) from the Canvas component.

JavaScript numbers are modelled as exact rationals (`ℚ`); the grid coordinates
produced by `Math.round` are integers (`ℤ`).  The A* main loop and the path
reconstruction loop of the source are `while` loops; they are embedded as
fuel-indexed recursions, and every theorem about them is proved for every fuel
value.  JS `Map`s keyed by `\x7bx\x7d,\x7by\x7d` strings are modelled as functions from
the (injectively corresponding) index pairs to `Option` values.
-/

/-- 2D point, mirroring the `Vec2` interface of the routing module. -/
structure Vec2 where
  x : ℚ
  y : ℚ
deriving DecidableEq, Repr

/-- Axis-aligned rectangle, mirroring the `Obstacle` interface. -/
structure Obstacle where
  min : Vec2
  max : Vec2
deriving DecidableEq, Repr

/-- Node snapshot shape, mirroring the `SerializableNode` interface
(the opaque `data`/`uuid` fields are irrelevant to geometry and omitted). -/
structure SerializableNode where
  id : String
  position : ℚ × ℚ
  size : ℚ × ℚ
  inputs : List String
  outputs : List String

/-- `findPortPosition(nodes, portId)` of the routing module: scan each node,
inputs first, then outputs; anchors sit one unit outside the node edge at the
padded vertical slot of the port index. -/
def findPortPosition : List SerializableNode → String → Option Vec2
  | [], _ => none
  | node :: rest, portId =>
    match node.inputs.indexOf? portId with
    | some inIdx =>
      let count : ℚ := node.inputs.length
      let availableHeight : ℚ := node.size.2 - 40
      some ⟨node.position.1 - 1,
            node.position.2 + 20 + ((inIdx : ℚ) + 1/2) * (availableHeight / count)⟩
    | none =>
      match node.outputs.indexOf? portId with
      | some outIdx =>
        let count : ℚ := node.outputs.length
        let availableHeight : ℚ := node.size.2 - 40
        some ⟨node.position.1 + node.size.1 + 1,
              node.position.2 + 20 + ((outIdx : ℚ) + 1/2) * (availableHeight / count)⟩
      | none => findPortPosition rest portId

/-- JavaScript `Math.round`: round half toward positive infinity. -/
def jsRound (q : ℚ) : ℤ := ⌊q + 1/2⌋

/-- Manhattan distance, as used throughout the router. -/
def manhattanDist (a b : Vec2) : ℚ := |a.x - b.x| + |a.y - b.y|

/-- The `isInside` closure of the router obstacle check (closed rectangle). -/
def isInside (obs : Obstacle) (p : Vec2) : Bool :=
  decide (obs.min.x ≤ p.x) && decide (p.x ≤ obs.max.x) &&
  decide (obs.min.y ≤ p.y) && decide (p.y ≤ obs.max.y)

/-- Strict interior of an obstacle rectangle. -/
def strictlyInside (obs : Obstacle) (p : Vec2) : Prop :=
  obs.min.x < p.x ∧ p.x < obs.max.x ∧ obs.min.y < p.y ∧ p.y < obs.max.y

instance (obs : Obstacle) (p : Vec2) : Decidable (strictlyInside obs p) := by
  unfold strictlyInside; infer_instance

/-- The blocked test of the router neighbour loop: some obstacle contains the
neighbour point or the edge midpoint, and the neighbour is not within the
5-unit docking exemption of either outset anchor. -/
def blockedAt (obstacles : List Obstacle) (pStart pEnd nPos mPos : Vec2) : Bool :=
  obstacles.any fun obs =>
    (isInside obs nPos || isInside obs mPos) &&
      !(decide (manhattanDist nPos pStart < 5) || decide (manhattanDist nPos pEnd < 5))

/-- Step cost of one grid expansion: manhattan distance, plus `dist * 3` added
once per obstacle whose buffer zone strictly contains the neighbour, plus a
flat 150 turn penalty when the direction changes. -/
def stepCost (obstacles : List Obstacle) (buffer : ℚ) (cPos nPos : Vec2)
    (cDir nDir : ℕ) : ℚ :=
  let dist := manhattanDist nPos cPos
  let cost1 := obstacles.foldl
    (fun acc obs =>
      if nPos.x > obs.min.x - buffer ∧ nPos.x < obs.max.x + buffer ∧
         nPos.y > obs.min.y - buffer ∧ nPos.y < obs.max.y + buffer
      then acc + dist * 3 else acc)
    dist
  if cDir ≠ 0 ∧ cDir ≠ nDir then cost1 + 150 else cost1

/-- Modelled from the claim (not from the source): step cost with the
proximity penalty applied at most once regardless of how many obstacles are
within buffer range of the neighbour. -/
def stepCostClaimed (obstacles : List Obstacle) (buffer : ℚ) (cPos nPos : Vec2)
    (cDir nDir : ℕ) : ℚ :=
  let dist := manhattanDist nPos cPos
  let base :=
    if obstacles.any (fun obs =>
        decide (nPos.x > obs.min.x - buffer) && decide (nPos.x < obs.max.x + buffer) &&
        decide (nPos.y > obs.min.y - buffer) && decide (nPos.y < obs.max.y + buffer))
    then dist + dist * 3 else dist
  if cDir ≠ nDir then base + 150 else base

/-- An entry of the open set: grid indices, f-score and entry direction
(1 right, 2 left, 3 down, 4 up; the initial entry uses direction 1). -/
structure OpenEntry where
  x : ℕ
  y : ℕ
  f : ℚ
  dir : ℕ
deriving DecidableEq, Repr

/-- Mutable state of the grid search: the open list and the two maps. -/
structure SearchState where
  openSet : List OpenEntry
  gScore : ℕ × ℕ → Option ℚ
  cameFrom : ℕ × ℕ → Option (ℕ × ℕ)

/-- Immutable context of the grid search. -/
structure RouteCtx where
  xs : List ℤ
  ys : List ℤ
  obstacles : List Obstacle
  buffer : ℚ
  pStart : Vec2
  pEnd : Vec2
  endX : ℕ
  endY : ℕ

/-- World position of the grid cell `(i, j)`. -/
def gridPoint (ctx : RouteCtx) (i j : ℕ) : Vec2 :=
  ⟨((ctx.xs.getD i 0 : ℤ) : ℚ), ((ctx.ys.getD j 0 : ℤ) : ℚ)⟩

/-- Body of the router neighbour loop: bounds check, 180-degree reversal
check, blocked check, cost computation and conditional relaxation. -/
def processNeighbor (ctx : RouteCtx) (cx cy cDir : ℕ) (st : SearchState)
    (n : ℤ × ℤ × ℕ) : SearchState :=
  let nxi := n.1
  let nyi := n.2.1
  let nDir := n.2.2
  if nxi < 0 ∨ (ctx.xs.length : ℤ) ≤ nxi ∨ nyi < 0 ∨ (ctx.ys.length : ℤ) ≤ nyi then st
  else if cDir ≠ 0 ∧ ((cDir = 1 ∧ nDir = 2) ∨ (cDir = 2 ∧ nDir = 1) ∨
                      (cDir = 3 ∧ nDir = 4) ∨ (cDir = 4 ∧ nDir = 3)) then st
  else
    let nx := nxi.toNat
    let ny := nyi.toNat
    let nPos := gridPoint ctx nx ny
    let cPos := gridPoint ctx cx cy
    let mPos : Vec2 := ⟨(nPos.x + cPos.x) / 2, (nPos.y + cPos.y) / 2⟩
    if blockedAt ctx.obstacles ctx.pStart ctx.pEnd nPos mPos then st
    else
      let cost := stepCost ctx.obstacles ctx.buffer cPos nPos cDir nDir
      let tentativeG := (st.gScore (cx, cy)).getD 0 + cost
      let better := match st.gScore (nx, ny) with
        | none => true
        | some g => decide (tentativeG < g)
      if better then
        let fScore := tentativeG + |nPos.x - ((ctx.xs.getD ctx.endX 0 : ℤ) : ℚ)| +
                      |nPos.y - ((ctx.ys.getD ctx.endY 0 : ℤ) : ℚ)|
        { openSet := st.openSet ++ [⟨nx, ny, fScore, nDir⟩],
          gScore := fun k => if k = (nx, ny) then some tentativeG else st.gScore k,
          cameFrom := fun k => if k = (nx, ny) then some (cx, cy) else st.cameFrom k }
      else st

/-- The A* main loop: stable-sort the open list by f-score (JS `sort` with a
numeric comparator is a stable ascending sort, which insertion sort by a
non-strict key comparison reproduces exactly), pop the head, stop when the
goal cell is popped, otherwise expand the four neighbours.  The source
`while` loop is embedded with a fuel parameter; every theorem below holds for
every fuel value.  Returns the predecessor map on success. -/
def aStarLoop (ctx : RouteCtx) : ℕ → SearchState → Option (ℕ × ℕ → Option (ℕ × ℕ))
  | 0, _ => none
  | fuel + 1, st =>
    match st.openSet.insertionSort (fun a b => a.f ≤ b.f) with
    | [] => none
    | c :: rest =>
      if c.x = ctx.endX ∧ c.y = ctx.endY then some st.cameFrom
      else
        let st1 : SearchState := { st with openSet := rest }
        let neighbors : List (ℤ × ℤ × ℕ) :=
          [((c.x : ℤ) + 1, (c.y : ℤ), 1), ((c.x : ℤ) - 1, (c.y : ℤ), 2),
           ((c.x : ℤ), (c.y : ℤ) + 1, 3), ((c.x : ℤ), (c.y : ℤ) - 1, 4)]
        aStarLoop ctx fuel (neighbors.foldl (processNeighbor ctx c.x c.y c.dir) st1)

/-- The `findClosest` scan of the router, with its running pair
(best index, best difference); the source initialises the difference to
infinity, so the first element always wins the first comparison. -/
def findClosestAuxP (val : ℚ) : List ℤ → ℕ → ℚ → ℕ → ℕ × ℚ
  | [], _, minDiff, idx => (idx, minDiff)
  | a :: rest, i, minDiff, idx =>
    let diff := |((a : ℤ) : ℚ) - val|
    if diff < minDiff then findClosestAuxP val rest (i + 1) diff i
    else findClosestAuxP val rest (i + 1) minDiff idx

/-- `findClosest(val, arr)`: index of the first entry of `arr` with minimal
absolute difference to `val` (0 for the empty array). -/
def findClosest (val : ℚ) (arr : List ℤ) : ℕ :=
  match arr with
  | [] => 0
  | a :: rest => (findClosestAuxP val rest 1 |((a : ℤ) : ℚ) - val| 0).1

/-- The backtracking loop of the router: follow `cameFrom` from the goal cell,
collecting cells (goal first).  Fuel-indexed embedding of the source `while`. -/
def reconstruct (cameFrom : ℕ × ℕ → Option (ℕ × ℕ)) : ℕ → ℕ × ℕ → List (ℕ × ℕ)
  | 0, _ => []
  | fuel + 1, curr =>
    curr :: (match cameFrom curr with
      | none => []
      | some p => reconstruct cameFrom fuel p)

/-- The collinearity test of the path simplification step. -/
def isColinear (pPrev pCurr pNext : Vec2) : Bool :=
  (decide (pPrev.x = pCurr.x) && decide (pCurr.x = pNext.x)) ||
  (decide (pPrev.y = pCurr.y) && decide (pCurr.y = pNext.y))

/-- The simplification loop: walk the interior points, dropping each point
collinear with the last kept point and the next original point; the final
point is always kept. -/
def simplifyLoop (pPrev : Vec2) : List Vec2 → List Vec2
  | [] => []
  | [pLast] => [pLast]
  | pCurr :: pNext :: rest =>
    if isColinear pPrev pCurr pNext then simplifyLoop pPrev (pNext :: rest)
    else pCurr :: simplifyLoop pCurr (pNext :: rest)

/-- Path simplification as performed by the router on a found path: only
paths longer than two points are simplified; the first point is always kept. -/
def simplifyPath (path : List Vec2) : List Vec2 :=
  if 2 < path.length then
    match path with
    | p0 :: rest => p0 :: simplifyLoop p0 rest
    | [] => path
  else path

/-- Outset start anchor: the start anchor pushed 20 units rightward. -/
def routePStart (start : Vec2) : Vec2 := ⟨start.x + 20, start.y⟩

/-- Outset end anchor: the end anchor pushed 20 units leftward. -/
def routePEnd (endp : Vec2) : Vec2 := ⟨endp.x - 20, endp.y⟩

/-- The sparse x-grid of the router: outset anchor columns, the global bypass
lanes 100 units beyond all extents, and per obstacle the buffered edges, the
second lane 20 units further out, and the centre line; rounded, deduplicated
and sorted. -/
def routeXs (start endp : Vec2) (obstacles : List Obstacle) (buffer : ℚ) : List ℤ :=
  let pStart := routePStart start
  let pEnd := routePEnd endp
  let minX := obstacles.foldl (fun m obs => min m obs.min.x) (min pStart.x pEnd.x)
  let maxX := obstacles.foldl (fun m obs => max m obs.max.x) (max pStart.x pEnd.x)
  let xs1 : List ℚ := [pStart.x, pEnd.x] ++ [minX - 100, maxX + 100] ++
    obstacles.flatMap (fun obs =>
      [obs.min.x - buffer, obs.max.x + buffer,
       obs.min.x - buffer - 20, obs.max.x + buffer + 20,
       (obs.min.x + obs.max.x) / 2])
  ((xs1.map jsRound).dedup).insertionSort (fun a b => a ≤ b)

/-- The sparse y-grid of the router, built exactly like `routeXs`. -/
def routeYs (start endp : Vec2) (obstacles : List Obstacle) (buffer : ℚ) : List ℤ :=
  let pStart := routePStart start
  let pEnd := routePEnd endp
  let minY := obstacles.foldl (fun m obs => min m obs.min.y) (min pStart.y pEnd.y)
  let maxY := obstacles.foldl (fun m obs => max m obs.max.y) (max pStart.y pEnd.y)
  let ys1 : List ℚ := [pStart.y, pEnd.y] ++ [minY - 100, maxY + 100] ++
    obstacles.flatMap (fun obs =>
      [obs.min.y - buffer, obs.max.y + buffer,
       obs.min.y - buffer - 20, obs.max.y + buffer + 20,
       (obs.min.y + obs.max.y) / 2])
  ((ys1.map jsRound).dedup).insertionSort (fun a b => a ≤ b)

/-- Search context assembled by `getSmartOrthogonalPath` before the A* loop. -/
def routeCtx (start endp : Vec2) (obstacles : List Obstacle) (buffer : ℚ) : RouteCtx :=
  let xs := routeXs start endp obstacles buffer
  let ys := routeYs start endp obstacles buffer
  let pStart := routePStart start
  let pEnd := routePEnd endp
  ⟨xs, ys, obstacles, buffer, pStart, pEnd, findClosest pEnd.x xs, findClosest pEnd.y ys⟩

/-- The start cell: both outset anchor coordinates snapped to the grid. -/
def routeStartCell (start endp : Vec2) (obstacles : List Obstacle) (buffer : ℚ) : ℕ × ℕ :=
  let pStart := routePStart start
  (findClosest pStart.x (routeXs start endp obstacles buffer),
   findClosest pStart.y (routeYs start endp obstacles buffer))

/-- Initial search state: the start cell in the open set with f-score 0 and
direction 1 (right), g-score 0 recorded for the start cell only. -/
def routeInitState (start endp : Vec2) (obstacles : List Obstacle) (buffer : ℚ) : SearchState :=
  let sc := routeStartCell start endp obstacles buffer
  { openSet := [⟨sc.1, sc.2, 0, 1⟩],
    gScore := fun k => if k = sc then some 0 else none,
    cameFrom := fun _ => none }

/-- `getSmartOrthogonalPath(start, end, obstacles, buffer)`: the obstacle-aware
orthogonal router.  Degenerate (nearly coincident outset anchors) and
search-failure cases fall back to the two raw anchors; a found path is
reconstructed, wrapped in the raw anchors, and simplified. -/
def getSmartOrthogonalPath (fuel : ℕ) (start endp : Vec2)
    (obstacles : List Obstacle) (buffer : ℚ) : List Vec2 :=
  let pStartReal : Vec2 := ⟨start.x, start.y⟩
  let pStart := routePStart start
  let pEndReal : Vec2 := ⟨endp.x, endp.y⟩
  let pEnd := routePEnd endp
  if |pStart.x - pEnd.x| < 1 ∧ |pStart.y - pEnd.y| < 1 then [pStartReal, pEndReal]
  else
    let ctx := routeCtx start endp obstacles buffer
    match aStarLoop ctx fuel (routeInitState start endp obstacles buffer) with
    | some cameFrom =>
      let keys := (reconstruct cameFrom fuel (ctx.endX, ctx.endY)).reverse
      let path := [pStartReal] ++ keys.map (fun k => gridPoint ctx k.1 k.2) ++ [pEndReal]
      simplifyPath path
    | none => [pStartReal, pEndReal]

/-- A grid cell is acceptable when every obstacle containing its point is
excused by the 5-unit docking exemption at one of the outset anchors. -/
def cellOK (ctx : RouteCtx) (k : ℕ × ℕ) : Prop :=
  ∀ obs ∈ ctx.obstacles, isInside obs (gridPoint ctx k.1 k.2) = true →
    manhattanDist (gridPoint ctx k.1 k.2) ctx.pStart < 5 ∨
    manhattanDist (gridPoint ctx k.1 k.2) ctx.pEnd < 5

/-- Search invariant: every cell with a predecessor passed the blocked check,
every predecessor chain bottoms out at the start cell, and every open-set
entry has a predecessor or is the start cell. -/
def InvC1 (ctx : RouteCtx) (sc : ℕ × ℕ) (st : SearchState) : Prop :=
  (∀ k, (st.cameFrom k).isSome = true → cellOK ctx k) ∧
  (∀ k v, st.cameFrom k = some v → (st.cameFrom v).isSome = true ∨ v = sc) ∧
  (∀ e ∈ st.openSet, (st.cameFrom (e.x, e.y)).isSome = true ∨ (e.x, e.y) = sc)

/-- `calculateLinearPoints` of the routing module. -/
def calculateLinearPoints (start endp : Vec2) : List Vec2 := [start, endp]

/-- The screen-to-world transform of the Canvas component. -/
def screenToWorld (rectLeft rectTop : ℚ) (pan : Vec2) (zoom : ℚ)
    (sx sy : ℚ) : Vec2 :=
  ⟨(sx - rectLeft - pan.x) / zoom, (sy - rectTop - pan.y) / zoom⟩

/-- The zoom branch of the Canvas `onWheel` handler: clamp the new zoom to
[0.1, 5], read the world point under the cursor at the old zoom, and solve the
pan so that the same world point reprojects to the cursor.  The zoom factor
(a power of 1.1 of the wheel delta) is taken as a parameter. -/
def onWheelZoom (pan : Vec2) (zoom mouseX mouseY factor : ℚ) : Vec2 × ℚ :=
  let newZoom := max (1/10) (min 5 (zoom * factor))
  let worldX := (mouseX - pan.x) / zoom
  let worldY := (mouseY - pan.y) / zoom
  (⟨mouseX - worldX * newZoom, mouseY - worldY * newZoom⟩, newZoom)

/-- The connection source recorded by `onPortMouseDown`. -/
structure ConnectingFrom where
  nodeId : String
  portId : String
  isOutput : Bool
deriving DecidableEq, Repr

/-- An add-edge intent as issued to the persistence collaborator. -/
structure AddEdgeIntent where
  fromPort : String
  toPort : String
deriving DecidableEq, Repr

/-- The Canvas `onPortMouseUp` handler: no-op when no connection is active;
otherwise issue an add-edge intent exactly when the two ports differ and have
opposite directions, orienting `from` to the output side; the connection state
is cleared in every active case.  Returns (intent, new connection state). -/
def onPortMouseUp (connectingFrom : Option ConnectingFrom)
    (portId : String) (isOutput : Bool) :
    Option AddEdgeIntent × Option ConnectingFrom :=
  match connectingFrom with
  | none => (none, none)
  | some cf =>
    if cf.isOutput ≠ isOutput ∧ cf.portId ≠ portId then
      (some ⟨if cf.isOutput then cf.portId else portId,
             if cf.isOutput then portId else cf.portId⟩, none)
    else (none, none)

/-- The node-drag branch of the Canvas `onMouseMove` handler: when a drag is
active and the dragged node exists, add the pointer delta in world units to
that node's position; every other node keeps its position. -/
def onMouseMoveDrag (nodes : String → Option Vec2) (draggingNodeId : Option String)
    (movementX movementY zoom : ℚ) : String → Option Vec2 :=
  match draggingNodeId with
  | none => nodes
  | some nid =>
    match nodes nid with
    | none => nodes
    | some pos =>
      fun k => if k = nid then some ⟨pos.x + movementX / zoom, pos.y + movementY / zoom⟩
               else nodes k

/-- The draw-order update performed by `onNodeMouseDown`: remove the node id
everywhere and append it at the end (bring to front). -/
def bringToFront (draw_order : List String) (nodeId : String) : List String :=
  draw_order.filter (fun id => id != nodeId) ++ [nodeId]

/-- A delete-items intent as issued to the persistence collaborator. -/
structure DeleteIntent where
  nodes : List String
  edges : List String
deriving DecidableEq, Repr

/-- The Canvas `onDelete` handler: with an empty selection do nothing;
otherwise issue one delete intent naming the selected nodes and no edges, and
clear the selection.  Returns (intent, new selection). -/
def onDelete (selectedNodeIds : List String) : Option DeleteIntent × List String :=
  if selectedNodeIds.isEmpty then (none, selectedNodeIds)
  else (some ⟨selectedNodeIds, []⟩, [])

/-- The action dispatched by the Canvas `onKeyDown` handler. -/
inductive KeyAction where
  | doUndo
  | doRedo
  | doCopy
  | doPaste
  | doDelete
  | doNothing
deriving DecidableEq, Repr

/-- JavaScript `toLowerCase()`, modelled characterwise (the handled keys are
ASCII). -/
def jsToLowerCase (s : String) : String := ⟨s.data.map Char.toLower⟩

/-- The Canvas `onKeyDown` dispatch: modifier+z for undo/redo, modifier+c/v
for copy/paste, Delete or Backspace for deletion of the selection. -/
def onKeyDown (key : String) (isMod shift : Bool) : KeyAction :=
  if isMod ∧ jsToLowerCase key = "z" then (if shift then .doRedo else .doUndo)
  else if isMod ∧ jsToLowerCase key = "c" then .doCopy
  else if isMod ∧ jsToLowerCase key = "v" then .doPaste
  else if key = "Delete" ∨ key = "Backspace" then .doDelete
  else .doNothing

/-! ## Claim C4: zoom-at-point preserves the world point under the cursor -/

/-- Claim C4: for every zoom wheel gesture, the new zoom is clamped to
[0.1, 5] and the world coordinate under the cursor is exactly preserved by
the recomputed pan (exact rational arithmetic). -/
theorem onWheel_zoom_at_point_invariant
    (pan : Vec2) (zoom factor rectLeft rectTop clientX clientY : ℚ) (hz : zoom ≠ 0) :
    1/10 ≤ (onWheelZoom pan zoom (clientX - rectLeft) (clientY - rectTop) factor).2 ∧
    (onWheelZoom pan zoom (clientX - rectLeft) (clientY - rectTop) factor).2 ≤ 5 ∧
    screenToWorld rectLeft rectTop
        (onWheelZoom pan zoom (clientX - rectLeft) (clientY - rectTop) factor).1
        (onWheelZoom pan zoom (clientX - rectLeft) (clientY - rectTop) factor).2
        clientX clientY =
      screenToWorld rectLeft rectTop pan zoom clientX clientY := by
  have hnz : (1/10 : ℚ) ≤ max (1/10) (min 5 (zoom * factor)) := le_max_left _ _
  have hnz0 : max (1/10 : ℚ) (min 5 (zoom * factor)) ≠ 0 := by
    intro h
    rw [h] at hnz
    norm_num at hnz
  refine ⟨hnz, max_le (by norm_num) (min_le_left _ _), ?_⟩
  unfold onWheelZoom screenToWorld
  simp only [Vec2.mk.injEq]
  constructor <;> field_simp <;> ring

/-- Witness for C4 at a concrete gesture. -/
theorem onWheel_zoom_at_point_invariant_witness :
    1/10 ≤ (onWheelZoom ⟨3, 4⟩ 1 ((50 : ℚ) - 10) ((60 : ℚ) - 20) 2).2 ∧
    (onWheelZoom ⟨3, 4⟩ 1 ((50 : ℚ) - 10) ((60 : ℚ) - 20) 2).2 ≤ 5 ∧
    screenToWorld 10 20 (onWheelZoom ⟨3, 4⟩ 1 ((50 : ℚ) - 10) ((60 : ℚ) - 20) 2).1
        (onWheelZoom ⟨3, 4⟩ 1 ((50 : ℚ) - 10) ((60 : ℚ) - 20) 2).2 50 60 =
      screenToWorld 10 20 ⟨3, 4⟩ 1 50 60 :=
  onWheel_zoom_at_point_invariant ⟨3, 4⟩ 1 2 10 20 50 60 (by norm_num)

/-! ## Claim C2: port-connect normalisation -/

/-- Claim C2: a completed port-connect gesture between two distinct ports of
opposite directions issues exactly one add-edge intent oriented from the
output-side port to the input-side port, independent of drag direction;
identical ports or equal directions issue no intent. -/
theorem onPortMouseUp_direction_normalization
    (outNode inNode outPort inPort : String) (hne : outPort ≠ inPort) :
    onPortMouseUp (some ⟨outNode, outPort, true⟩) inPort false =
      (some ⟨outPort, inPort⟩, none) ∧
    onPortMouseUp (some ⟨inNode, inPort, false⟩) outPort true =
      (some ⟨outPort, inPort⟩, none) ∧
    (∀ nodeA p d1 d2, onPortMouseUp (some ⟨nodeA, p, d1⟩) p d2 = (none, none)) ∧
    (∀ nodeA p q d, onPortMouseUp (some ⟨nodeA, p, d⟩) q d = (none, none)) := by
  refine ⟨?_, ?_, ?_, ?_⟩
  · simp [onPortMouseUp, hne]
  · simp [onPortMouseUp, Ne.symm hne]
  · intro nodeA p d1 d2
    simp [onPortMouseUp]
  · intro nodeA p q d
    simp [onPortMouseUp]

/-- Witness for C2 at concrete ports. -/
theorem onPortMouseUp_direction_normalization_witness :
    onPortMouseUp (some ⟨"n1", "o1", true⟩) "i1" false = (some ⟨"o1", "i1"⟩, none) ∧
    onPortMouseUp (some ⟨"n2", "i1", false⟩) "o1" true = (some ⟨"o1", "i1"⟩, none) :=
  ⟨(onPortMouseUp_direction_normalization "n1" "n2" "o1" "i1" (by decide)).1,
   (onPortMouseUp_direction_normalization "n1" "n2" "o1" "i1" (by decide)).2.1⟩

/-! ## Claim C3: node dragging -/

/-- Claim C3 counterexample: with nodes A and B both in the selection set and
A being dragged, a pointer move of (5, 0) at zoom 1 leaves B unmoved, so the
claim that every selected node is adjusted by the pointer delta is false. -/
theorem onMouseMove_moves_only_dragged_node_cex :
    "B" ∈ (["A", "B"] : List String) ∧
    onMouseMoveDrag
        (fun k => if k = "A" then some ⟨0, 0⟩ else if k = "B" then some ⟨10, 10⟩ else none)
        (some "A") 5 0 1 "B" = some ⟨10, 10⟩ ∧
    onMouseMoveDrag
        (fun k => if k = "A" then some ⟨0, 0⟩ else if k = "B" then some ⟨10, 10⟩ else none)
        (some "A") 5 0 1 "B" ≠ some ⟨10 + 5 / 1, 10 + 0 / 1⟩ := by
  have h : onMouseMoveDrag
      (fun k => if k = "A" then some ⟨0, 0⟩ else if k = "B" then some ⟨10, 10⟩ else none)
      (some "A") 5 0 1 "B" = some ⟨10, 10⟩ := by decide
  refine ⟨by decide, h, ?_⟩
  rw [h]
  norm_num [Vec2.mk.injEq]

/-- Claim C3 as amended: a pointer move during a drag adjusts the position of
the dragged node only, by the pointer delta in world units
(movementX / zoom, movementY / zoom); every other node is unchanged. -/
theorem onMouseMove_moves_dragged_node
    (nodes : String → Option Vec2) (nid : String) (pos : Vec2)
    (movementX movementY zoom : ℚ) (hn : nodes nid = some pos) :
    onMouseMoveDrag nodes (some nid) movementX movementY zoom nid =
      some ⟨pos.x + movementX / zoom, pos.y + movementY / zoom⟩ ∧
    ∀ k, k ≠ nid → onMouseMoveDrag nodes (some nid) movementX movementY zoom k = nodes k := by
  constructor
  · simp [onMouseMoveDrag, hn]
  · intro k hk
    simp [onMouseMoveDrag, hn, hk]

/-- Witness for C3 (amended) at a concrete drag. -/
theorem onMouseMove_moves_dragged_node_witness :
    onMouseMoveDrag (fun k => if k = "A" then some ⟨1, 2⟩ else none)
        (some "A") 4 6 2 "A" = some ⟨1 + 4 / 2, 2 + 6 / 2⟩ ∧
    onMouseMoveDrag (fun k => if k = "A" then some ⟨1, 2⟩ else none)
        (some "A") 4 6 2 "B" = none :=
  ⟨(onMouseMove_moves_dragged_node _ "A" ⟨1, 2⟩ 4 6 2 (by decide)).1,
   (onMouseMove_moves_dragged_node _ "A" ⟨1, 2⟩ 4 6 2 (by decide)).2 "B" (by decide)⟩

/-! ## Claim C9: draw-order bring-to-front -/

/-- Claim C9: when the draw order is a permutation of the live node ids and
the pressed node is live, bring-to-front yields again a permutation of the
same ids, leaves every other element in its relative place, and puts the
pressed id last. -/
theorem bringToFront_permutation (draw_order ids : List String) (nodeId : String)
    (hperm : draw_order.Perm ids) (hnd : ids.Nodup) (hmem : nodeId ∈ ids) :
    (bringToFront draw_order nodeId).Perm ids ∧
    (bringToFront draw_order nodeId).filter (fun id => id != nodeId) =
      draw_order.filter (fun id => id != nodeId) ∧
    (bringToFront draw_order nodeId).getLast? = some nodeId := by
  have hnd2 : draw_order.Nodup := hperm.nodup_iff.mpr hnd
  have hmem2 : nodeId ∈ draw_order := hperm.mem_iff.mpr hmem
  refine ⟨?_, ?_, ?_⟩
  · have h1 : bringToFront draw_order nodeId = draw_order.erase nodeId ++ [nodeId] := by
      rw [bringToFront, hnd2.erase_eq_filter]
    rw [h1]
    exact ((List.perm_append_singleton _ _).trans
      (List.perm_cons_erase hmem2).symm).trans hperm
  · simp [bringToFront, List.filter_append, List.filter_filter]
  · simp [bringToFront]

/-- Witness for C9 at a concrete draw order. -/
theorem bringToFront_permutation_witness :
    (bringToFront ["a", "b", "c"] "b").Perm ["a", "b", "c"] ∧
    (bringToFront ["a", "b", "c"] "b").filter (fun id => id != "b") =
      (["a", "b", "c"] : List String).filter (fun id => id != "b") ∧
    (bringToFront ["a", "b", "c"] "b").getLast? = some "b" :=
  bringToFront_permutation ["a", "b", "c"] ["a", "b", "c"] "b"
    (List.Perm.refl _) (by decide) (by decide)

/-! ## Claim C10: keyboard delete -/

/-- Claim C10: Delete or Backspace dispatches the delete action regardless of
modifiers; with a non-empty selection, `onDelete` issues exactly one intent
naming the selected nodes and an empty edge list and clears the selection;
with an empty selection it issues nothing and leaves the selection unchanged. -/
theorem onDelete_intent_spec (key : String) (isMod shift : Bool)
    (selected : List String) (hkey : key = "Delete" ∨ key = "Backspace")
    (hsel : selected ≠ []) :
    onKeyDown key isMod shift = KeyAction.doDelete ∧
    onDelete selected = (some ⟨selected, []⟩, []) ∧
    onDelete [] = (none, ([] : List String)) := by
  refine ⟨?_, ?_, by decide⟩
  · rcases hkey with h | h <;> subst h <;> cases isMod <;> cases shift <;> decide
  · cases selected with
    | nil => exact absurd rfl hsel
    | cons a l => simp [onDelete]

/-- Witness for C10 at a concrete key press and selection. -/
theorem onDelete_intent_spec_witness :
    onKeyDown "Delete" false false = KeyAction.doDelete ∧
    onDelete ["n1"] = (some ⟨["n1"], []⟩, []) ∧
    onDelete [] = (none, ([] : List String)) :=
  onDelete_intent_spec "Delete" false false ["n1"] (Or.inl rfl) (by decide)

/-! ## Claim C5: port anchor positions -/

section
attribute [local semireducible] Rat.sub Rat.add Rat.mul Rat.inv

/-- Claim C5 counterexample: for a node at x = 100 with one input port, the
computed anchor x-coordinate is 99 (one unit left of the node edge), not the
node edge x = 100 stated by the claim. -/
theorem findPortPosition_left_edge_cex :
    findPortPosition [⟨"n", (100, 200), (80, 100), ["a"], ["b"]⟩] "a" = some ⟨99, 250⟩ ∧
    findPortPosition [⟨"n", (100, 200), (80, 100), ["a"], ["b"]⟩] "a" ≠ some ⟨100, 250⟩ := by
  constructor <;> decide

end

/-- Claim C5 as amended: for the first node containing the port, an input at
index `i` of `n` inputs anchors at x = node.x − 1 (one unit left of the left
edge) and y = node.y + 20 + (i + 0.5)·(h − 40)/n; an output at index `i` of
`n` outputs anchors at x = node.x + w + 1 (one unit right of the right edge)
at the same vertical offset; each node's inputs are scanned before its
outputs, nodes in list order. -/
theorem findPortPosition_anchor_formula (pre post : List SerializableNode)
    (node : SerializableNode) (portId : String)
    (hpre : ∀ m ∈ pre, m.inputs.indexOf? portId = none ∧ m.outputs.indexOf? portId = none) :
    (∀ i, node.inputs.indexOf? portId = some i →
      findPortPosition (pre ++ node :: post) portId =
        some ⟨node.position.1 - 1,
              node.position.2 + 20 + ((i : ℚ) + 1/2) * ((node.size.2 - 40) / (node.inputs.length : ℚ))⟩) ∧
    (∀ i, node.inputs.indexOf? portId = none → node.outputs.indexOf? portId = some i →
      findPortPosition (pre ++ node :: post) portId =
        some ⟨node.position.1 + node.size.1 + 1,
              node.position.2 + 20 + ((i : ℚ) + 1/2) * ((node.size.2 - 40) / (node.outputs.length : ℚ))⟩) := by
  induction pre with
  | nil =>
    constructor
    · intro i hi
      simp [findPortPosition, hi]
    · intro i h0 hi
      simp [findPortPosition, h0, hi]
  | cons m pre ih =>
    have hm := hpre m (List.mem_cons_self m pre)
    have ih2 := ih (fun m2 hm2 => hpre m2 (List.mem_cons_of_mem m hm2))
    constructor
    · intro i hi
      simpa [findPortPosition, hm.1, hm.2] using ih2.1 i hi
    · intro i h0 hi
      simpa [findPortPosition, hm.1, hm.2] using ih2.2 i h0 hi

/-- Witness for C5 (amended) at a concrete node. -/
theorem findPortPosition_anchor_formula_witness :
    findPortPosition [⟨"n", (100, 200), (80, 100), ["a"], ["b"]⟩] "a" = some ⟨99, 250⟩ ∧
    findPortPosition [⟨"n", (100, 200), (80, 100), ["a"], ["b"]⟩] "b" = some ⟨181, 250⟩ := by
  have h1 := (findPortPosition_anchor_formula [] []
    ⟨"n", (100, 200), (80, 100), ["a"], ["b"]⟩ "a" (by simp)).1 0 (by decide)
  have h2 := (findPortPosition_anchor_formula [] []
    ⟨"n", (100, 200), (80, 100), ["a"], ["b"]⟩ "b" (by simp)).2 0 (by decide) (by decide)
  simp only [List.nil_append] at h1 h2
  rw [h1, h2]
  norm_num [Vec2.mk.injEq]

/-! ## Claim C7: step cost structure -/

section
attribute [local semireducible] Rat.sub Rat.add Rat.mul Rat.inv

/-- Claim C7 counterexample: a neighbour 10 units away lying within buffer
range of two obstacles gets cost 10 + 30 + 30 = 70 (the penalty accumulates
per obstacle), while the claim's once-only penalty yields 40. -/
theorem stepCost_double_penalty_cex :
    stepCost [⟨⟨0, 0⟩, ⟨1, 1⟩⟩, ⟨⟨0, 0⟩, ⟨2, 2⟩⟩] 20 ⟨0, 0⟩ ⟨10, 0⟩ 1 1 = 70 ∧
    stepCostClaimed [⟨⟨0, 0⟩, ⟨1, 1⟩⟩, ⟨⟨0, 0⟩, ⟨2, 2⟩⟩] 20 ⟨0, 0⟩ ⟨10, 0⟩ 1 1 = 40 ∧
    stepCost [⟨⟨0, 0⟩, ⟨1, 1⟩⟩, ⟨⟨0, 0⟩, ⟨2, 2⟩⟩] 20 ⟨0, 0⟩ ⟨10, 0⟩ 1 1 ≠
      stepCostClaimed [⟨⟨0, 0⟩, ⟨1, 1⟩⟩, ⟨⟨0, 0⟩, ⟨2, 2⟩⟩] 20 ⟨0, 0⟩ ⟨10, 0⟩ 1 1 := by
  refine ⟨by decide, by decide, by decide⟩

end

/-- The proximity-penalty fold adds `dist * 3` once per obstacle whose open
buffer rectangle contains the neighbour. -/
theorem prox_foldl_eq (nPos : Vec2) (buffer dist : ℚ) (l : List Obstacle) :
    ∀ acc : ℚ,
      l.foldl (fun acc obs =>
        if nPos.x > obs.min.x - buffer ∧ nPos.x < obs.max.x + buffer ∧
           nPos.y > obs.min.y - buffer ∧ nPos.y < obs.max.y + buffer
        then acc + dist * 3 else acc) acc =
      acc + dist * 3 * ((l.filter (fun obs =>
        decide (nPos.x > obs.min.x - buffer ∧ nPos.x < obs.max.x + buffer ∧
                nPos.y > obs.min.y - buffer ∧ nPos.y < obs.max.y + buffer))).length : ℚ) := by
  induction l with
  | nil => intro acc; simp
  | cons obs l ih =>
    intro acc
    by_cases h : nPos.x > obs.min.x - buffer ∧ nPos.x < obs.max.x + buffer ∧
                 nPos.y > obs.min.y - buffer ∧ nPos.y < obs.max.y + buffer
    · rw [List.foldl_cons, if_pos h, ih, List.filter_cons_of_pos (by simpa using h)]
      push_cast [List.length_cons]
      ring
    · rw [List.foldl_cons, if_neg h, ih, List.filter_cons_of_neg (by simpa using h)]

/-- Claim C7 as amended: the step cost of an expansion equals the manhattan
distance to the neighbour times (1 + 3·k) where k is the number of obstacles
whose buffer zone strictly contains the neighbour (the penalty accumulates
once per nearby obstacle), plus a flat 150 when the direction changes
relative to the incoming direction. -/
theorem stepCost_formula (obstacles : List Obstacle) (buffer : ℚ) (cPos nPos : Vec2)
    (cDir nDir : ℕ) :
    stepCost obstacles buffer cPos nPos cDir nDir =
      manhattanDist nPos cPos * (1 + 3 * ((obstacles.filter (fun obs =>
        decide (nPos.x > obs.min.x - buffer ∧ nPos.x < obs.max.x + buffer ∧
                nPos.y > obs.min.y - buffer ∧ nPos.y < obs.max.y + buffer))).length : ℚ)) +
      (if cDir ≠ 0 ∧ cDir ≠ nDir then 150 else 0) := by
  simp only [stepCost]
  rw [prox_foldl_eq]
  by_cases h : cDir ≠ 0 ∧ cDir ≠ nDir
  · rw [if_pos h, if_pos h]
    ring
  · rw [if_neg h, if_neg h]
    ring

/-! ## Claim C8: simplification idempotence -/

section
attribute [local semireducible] Rat.sub Rat.add Rat.mul Rat.inv

/-- Claim C8 counterexample: on a path that revisits the point (2, 0), one
simplification pass leaves the three collinear points (0,0), (2,0), (5,0),
and a second pass removes (2,0); so simplification is not idempotent for
every path. -/
theorem simplifyPath_not_idempotent_cex :
    simplifyPath [⟨0, 0⟩, ⟨2, 0⟩, ⟨2, 7⟩, ⟨2, 0⟩, ⟨5, 0⟩] =
      ([⟨0, 0⟩, ⟨2, 0⟩, ⟨5, 0⟩] : List Vec2) ∧
    simplifyPath (simplifyPath [⟨0, 0⟩, ⟨2, 0⟩, ⟨2, 7⟩, ⟨2, 0⟩, ⟨5, 0⟩]) ≠
      simplifyPath [⟨0, 0⟩, ⟨2, 0⟩, ⟨2, 7⟩, ⟨2, 0⟩, ⟨5, 0⟩] := by
  constructor <;> decide

end

/-- Two points of the plane are equal when both coordinates agree. -/
theorem Vec2.eq_of_xy {a b : Vec2} (hx : a.x = b.x) (hy : a.y = b.y) : a = b := by
  cases a
  cases b
  simp_all

/-- The collinearity test, as a proposition. -/
theorem isColinear_iff (a b c : Vec2) :
    isColinear a b c = true ↔ ((a.x = b.x ∧ b.x = c.x) ∨ (a.y = b.y ∧ b.y = c.y)) := by
  simp [isColinear]

/-- The simplification loop never empties a nonempty list. -/
theorem simplifyLoop_ne_nil : ∀ (l : List Vec2) (prev : Vec2), l ≠ [] →
    simplifyLoop prev l ≠ [] := by
  intro l
  induction l with
  | nil => intro prev h; exact absurd rfl h
  | cons c tail ih =>
    intro prev _
    cases tail with
    | nil => simp [simplifyLoop]
    | cons c2 rest =>
      by_cases hcol : isColinear prev c c2 = true
      · simpa [simplifyLoop, hcol] using ih prev (by simp)
      · simp [simplifyLoop, hcol]

/-- If the head of the simplified tail agrees with the last kept point on a
coordinate, then so did the first dropped-or-kept candidate: dropped points
run along one axis through the last kept point. -/
theorem simplifyLoop_head : ∀ (rest : List Vec2) (q c h : Vec2), q ∉ c :: rest →
    (simplifyLoop q (c :: rest)).head? = some h →
    (h.x = q.x → c.x = q.x) ∧ (h.y = q.y → c.y = q.y) := by
  intro rest
  induction rest with
  | nil =>
    intro q c h _ hh
    simp [simplifyLoop] at hh
    subst hh
    exact ⟨fun hx => hx, fun hy => hy⟩
  | cons c2 tail ih =>
    intro q c h hq hh
    by_cases hcol : isColinear q c c2 = true
    · rw [show simplifyLoop q (c :: c2 :: tail) = simplifyLoop q (c2 :: tail) by
        simp [simplifyLoop, hcol]] at hh
      have hq2 : q ∉ c2 :: tail := fun hmem => hq (List.mem_cons_of_mem c hmem)
      have hih := ih q c2 h hq2 hh
      rcases (isColinear_iff q c c2).mp hcol with ⟨h1, h2⟩ | ⟨h1, h2⟩
      · refine ⟨fun _ => h1.symm, fun hy => ?_⟩
        exact absurd (List.mem_cons_of_mem c (List.mem_cons_self c2 tail))
          (by
            have : c2 = q := Vec2.eq_of_xy (h2.symm.trans h1.symm) (hih.2 hy)
            rw [this] at hq
            simp_all)
      · refine ⟨fun hx => ?_, fun _ => h1.symm⟩
        exact absurd (List.mem_cons_of_mem c (List.mem_cons_self c2 tail))
          (by
            have : c2 = q := Vec2.eq_of_xy (hih.1 hx) (h2.symm.trans h1.symm)
            rw [this] at hq
            simp_all)
    · rw [show simplifyLoop q (c :: c2 :: tail) = c :: simplifyLoop c (c2 :: tail) by
        simp [simplifyLoop, hcol]] at hh
      simp at hh
      subst hh
      exact ⟨fun hx => hx, fun hy => hy⟩

/-- On a duplicate-free input, one pass of the simplification loop is a fixed
point of a second pass. -/
theorem simplifyLoop_fix : ∀ (l : List Vec2) (prev : Vec2), (prev :: l).Nodup →
    simplifyLoop prev (simplifyLoop prev l) = simplifyLoop prev l := by
  intro l
  induction l with
  | nil => intro prev _; simp [simplifyLoop]
  | cons c tail ih =>
    intro prev hnd
    cases tail with
    | nil => simp [simplifyLoop]
    | cons c2 rest =>
      by_cases hcol : isColinear prev c c2 = true
      · have hnd2 : (prev :: c2 :: rest).Nodup := by
          have hsub : (prev :: c2 :: rest).Sublist (prev :: c :: c2 :: rest) := by
            refine List.Sublist.cons₂ prev ?_
            exact List.sublist_cons_self c (c2 :: rest)
          exact hnd.sublist hsub
        rw [show simplifyLoop prev (c :: c2 :: rest) = simplifyLoop prev (c2 :: rest) by
          simp [simplifyLoop, hcol]]
        exact ih prev hnd2
      · rw [show simplifyLoop prev (c :: c2 :: rest) = c :: simplifyLoop c (c2 :: rest) by
          simp [simplifyLoop, hcol]]
        have hR : simplifyLoop c (c2 :: rest) ≠ [] := simplifyLoop_ne_nil _ c (by simp)
        obtain ⟨r, R2, hr⟩ : ∃ r R2, simplifyLoop c (c2 :: rest) = r :: R2 :=
          List.exists_cons_of_ne_nil hR
        have hcmem : c ∉ c2 :: rest := by
          have h2 := hnd.of_cons
          rw [List.nodup_cons] at h2
          exact h2.1
        have hhead := simplifyLoop_head rest c c2 r hcmem (by rw [hr]; rfl)
        have hcol2 : ¬ isColinear prev c r = true := by
          intro hc
          rcases (isColinear_iff prev c r).mp hc with ⟨h1, h2⟩ | ⟨h1, h2⟩
          · exact hcol ((isColinear_iff prev c c2).mpr
              (Or.inl ⟨h1, (hhead.1 h2.symm).symm⟩))
          · exact hcol ((isColinear_iff prev c c2).mpr
              (Or.inr ⟨h1, (hhead.2 h2.symm).symm⟩))
        rw [hr]
        rw [show simplifyLoop prev (c :: r :: R2) = c :: simplifyLoop c (r :: R2) by
          simp [simplifyLoop, hcol2]]
        have hfix := ih c hnd.of_cons
        rw [hr] at hfix
        rw [hfix]

/-- Claim C8 as amended: the path simplification of the router is idempotent
on every path without repeated points (duplicate-free); the counterexample
shows a repeated point is necessary to break idempotence. -/
theorem simplifyPath_idempotent_of_nodup (path : List Vec2) (hnd : path.Nodup) :
    simplifyPath (simplifyPath path) = simplifyPath path := by
  by_cases hlen : 2 < path.length
  · cases path with
    | nil => simp at hlen
    | cons p0 rest =>
      have h1 : simplifyPath (p0 :: rest) = p0 :: simplifyLoop p0 rest := by
        unfold simplifyPath
        rw [if_pos hlen]
      rw [h1]
      by_cases h2 : 2 < (p0 :: simplifyLoop p0 rest).length
      · have h3 : simplifyPath (p0 :: simplifyLoop p0 rest) =
            p0 :: simplifyLoop p0 (simplifyLoop p0 rest) := by
          unfold simplifyPath
          rw [if_pos h2]
        rw [h3, simplifyLoop_fix rest p0 hnd]
      · unfold simplifyPath
        rw [if_neg h2]
  · have h0 : simplifyPath path = path := by
      unfold simplifyPath
      rw [if_neg hlen]
    rw [h0, h0]

/-- Witness for C8 (amended) at a concrete duplicate-free path. -/
theorem simplifyPath_idempotent_of_nodup_witness :
    simplifyPath (simplifyPath [⟨0, 0⟩, ⟨3, 1⟩, ⟨5, 5⟩]) =
      simplifyPath [⟨0, 0⟩, ⟨3, 1⟩, ⟨5, 5⟩] :=
  simplifyPath_idempotent_of_nodup _ (by decide)

/-! ## Claim C6: the router is total with a straight-line fallback -/

/-- The simplification loop keeps the last point. -/
theorem simplifyLoop_getLast : ∀ (l : List Vec2) (prev : Vec2), l ≠ [] →
    (simplifyLoop prev l).getLast? = l.getLast? := by
  intro l
  induction l with
  | nil => intro prev h; exact absurd rfl h
  | cons c tail ih =>
    intro prev _
    cases tail with
    | nil => simp [simplifyLoop]
    | cons c2 rest =>
      by_cases hcol : isColinear prev c c2 = true
      · rw [show simplifyLoop prev (c :: c2 :: rest) = simplifyLoop prev (c2 :: rest) by
          simp [simplifyLoop, hcol]]
        rw [ih prev (by simp), List.getLast?_cons_cons]
      · rw [show simplifyLoop prev (c :: c2 :: rest) = c :: simplifyLoop c (c2 :: rest) by
          simp [simplifyLoop, hcol]]
        have hne := simplifyLoop_ne_nil (c2 :: rest) c (by simp)
        obtain ⟨r, R2, hr⟩ := List.exists_cons_of_ne_nil hne
        rw [hr, List.getLast?_cons_cons, ← hr, ih c (by simp), List.getLast?_cons_cons]

/-- Auxiliary: the last element of `m :: (l ++ [e])` is `e`. -/
theorem getLast?_cons_append_singleton (m e : Vec2) :
    ∀ l : List Vec2, (m :: (l ++ [e])).getLast? = some e := by
  intro l
  induction l generalizing m with
  | nil => rfl
  | cons b l2 ih => exact (List.getLast?_cons_cons).trans (ih b)

/-- Claim C6: the router always returns at least two points, the first being
the raw start anchor and the last the raw end anchor; and whenever the grid
search exhausts its open set (returns no predecessor map), the result is
exactly the two raw anchors. -/
theorem getSmartOrthogonalPath_total_fallback (fuel : ℕ) (start endp : Vec2)
    (obstacles : List Obstacle) (buffer : ℚ) :
    2 ≤ (getSmartOrthogonalPath fuel start endp obstacles buffer).length ∧
    (getSmartOrthogonalPath fuel start endp obstacles buffer).head? =
      some ⟨start.x, start.y⟩ ∧
    (getSmartOrthogonalPath fuel start endp obstacles buffer).getLast? =
      some ⟨endp.x, endp.y⟩ ∧
    ((aStarLoop (routeCtx start endp obstacles buffer) fuel
        (routeInitState start endp obstacles buffer)).isNone = true →
      getSmartOrthogonalPath fuel start endp obstacles buffer =
        [⟨start.x, start.y⟩, ⟨endp.x, endp.y⟩]) := by
  by_cases hdeg : |(routePStart start).x - (routePEnd endp).x| < 1 ∧
      |(routePStart start).y - (routePEnd endp).y| < 1
  · have hpath : getSmartOrthogonalPath fuel start endp obstacles buffer =
        [⟨start.x, start.y⟩, ⟨endp.x, endp.y⟩] := by
      simp only [getSmartOrthogonalPath]
      rw [if_pos hdeg]
    rw [hpath]
    exact ⟨by simp, rfl, rfl, fun _ => rfl⟩
  · cases hres : aStarLoop (routeCtx start endp obstacles buffer) fuel
        (routeInitState start endp obstacles buffer) with
    | none =>
      have hpath : getSmartOrthogonalPath fuel start endp obstacles buffer =
          [⟨start.x, start.y⟩, ⟨endp.x, endp.y⟩] := by
        simp only [getSmartOrthogonalPath, hres]
        rw [if_neg hdeg]
      rw [hpath]
      exact ⟨by simp, rfl, rfl, fun _ => rfl⟩
    | some cf =>
      have hpath : getSmartOrthogonalPath fuel start endp obstacles buffer =
          simplifyPath ([⟨start.x, start.y⟩] ++
            ((reconstruct cf fuel ((routeCtx start endp obstacles buffer).endX,
              (routeCtx start endp obstacles buffer).endY)).reverse).map
              (fun k => gridPoint (routeCtx start endp obstacles buffer) k.1 k.2) ++
            [⟨endp.x, endp.y⟩]) := by
        simp only [getSmartOrthogonalPath, hres]
        rw [if_neg hdeg]
      rw [hpath]
      cases hmid : ((reconstruct cf fuel ((routeCtx start endp obstacles buffer).endX,
          (routeCtx start endp obstacles buffer).endY)).reverse).map
          (fun k => gridPoint (routeCtx start endp obstacles buffer) k.1 k.2) with
      | nil =>
        refine ⟨by simp [simplifyPath], by simp [simplifyPath], by simp [simplifyPath], ?_⟩
        intro hnone
        simp at hnone
      | cons m mid2 =>
        have hlen : 2 < ([⟨start.x, start.y⟩] ++ (m :: mid2) ++ [⟨endp.x, endp.y⟩] :
            List Vec2).length := by
          simp only [List.length_append, List.length_cons, List.length_nil]
          omega
        have h1 : simplifyPath ([⟨start.x, start.y⟩] ++ (m :: mid2) ++
            [⟨endp.x, endp.y⟩] : List Vec2) =
            ⟨start.x, start.y⟩ :: simplifyLoop ⟨start.x, start.y⟩
              ((m :: mid2) ++ [⟨endp.x, endp.y⟩]) := by
          unfold simplifyPath
          rw [if_pos hlen]
          rfl
        rw [h1]
        have hne := simplifyLoop_ne_nil ((m :: mid2) ++ [⟨endp.x, endp.y⟩])
          ⟨start.x, start.y⟩ (by simp)
        obtain ⟨a, l2, hsl⟩ := List.exists_cons_of_ne_nil hne
        refine ⟨?_, rfl, ?_, ?_⟩
        · rw [hsl]
          simp
        · rw [hsl, List.getLast?_cons_cons, ← hsl,
            simplifyLoop_getLast _ _ (by simp)]
          exact getLast?_cons_append_singleton m ⟨endp.x, endp.y⟩ mid2
        · intro hnone
          simp at hnone

section
attribute [local semireducible] Rat.sub Rat.add Rat.mul Rat.inv

/-- Witness for C6 at a concrete unroutable geometry: the start anchor is
boxed in by an obstacle, the open set empties, and the router falls back to
the two raw anchors. -/
theorem getSmartOrthogonalPath_total_fallback_witness :
    getSmartOrthogonalPath 100 ⟨0, 0⟩ ⟨300, 0⟩ [⟨⟨-100, -100⟩, ⟨100, 100⟩⟩] 20 =
      [⟨0, 0⟩, ⟨300, 0⟩] := by
  have h := (getSmartOrthogonalPath_total_fallback 100 ⟨0, 0⟩ ⟨300, 0⟩
    [⟨⟨-100, -100⟩, ⟨100, 100⟩⟩] 20).2.2.2
  exact h (by decide)

end

/-! ## Claim C1: interior path points avoid obstacles -/

/-- A strictly interior point satisfies the closed inclusion test. -/
theorem isInside_of_strictlyInside {obs : Obstacle} {p : Vec2}
    (h : strictlyInside obs p) : isInside obs p = true := by
  obtain ⟨h1, h2, h3, h4⟩ := h
  simp only [isInside, Bool.and_eq_true, decide_eq_true_eq]
  exact ⟨⟨⟨le_of_lt h1, le_of_lt h2⟩, le_of_lt h3⟩, le_of_lt h4⟩

/-- One neighbour-processing step either leaves the state unchanged or
relaxes one unblocked cell, appending it to the open set and pointing its
predecessor at the expanded cell. -/
theorem processNeighbor_cases (ctx : RouteCtx) (cx cy cDir : ℕ) (st : SearchState)
    (n : ℤ × ℤ × ℕ) :
    processNeighbor ctx cx cy cDir st n = st ∨
    ∃ nx ny f tg mp,
      blockedAt ctx.obstacles ctx.pStart ctx.pEnd (gridPoint ctx nx ny) mp = false ∧
      processNeighbor ctx cx cy cDir st n =
        { openSet := st.openSet ++ [⟨nx, ny, f, n.2.2⟩],
          gScore := fun k => if k = (nx, ny) then some tg else st.gScore k,
          cameFrom := fun k => if k = (nx, ny) then some (cx, cy) else st.cameFrom k } := by
  unfold processNeighbor
  dsimp only
  split
  next => exact Or.inl rfl
  next =>
    split
    next => exact Or.inl rfl
    next =>
      split
      next => exact Or.inl rfl
      next hb =>
        split
        next => exact Or.inr ⟨_, _, _, _, _, Bool.eq_false_iff.mpr hb, rfl⟩
        next => exact Or.inl rfl

/-- Neighbour processing never erases a predecessor entry. -/
theorem processNeighbor_cameFrom_mono (ctx : RouteCtx) (cx cy cDir : ℕ)
    (st : SearchState) (n : ℤ × ℤ × ℕ) (k : ℕ × ℕ)
    (hk : (st.cameFrom k).isSome = true) :
    ((processNeighbor ctx cx cy cDir st n).cameFrom k).isSome = true := by
  rcases processNeighbor_cases ctx cx cy cDir st n with h | ⟨nx, ny, f, tg, mp, _, h⟩
  · rw [h]
    exact hk
  · rw [h]
    dsimp only
    by_cases hke : k = (nx, ny)
    · rw [if_pos hke]
      rfl
    · rw [if_neg hke]
      exact hk

/-- Neighbour processing preserves the search invariant, given that the
expanded cell itself has a predecessor or is the start cell. -/
theorem processNeighbor_inv (ctx : RouteCtx) (sc : ℕ × ℕ) (cx cy cDir : ℕ)
    (st : SearchState) (n : ℤ × ℤ × ℕ) (hinv : InvC1 ctx sc st)
    (hc : (st.cameFrom (cx, cy)).isSome = true ∨ (cx, cy) = sc) :
    InvC1 ctx sc (processNeighbor ctx cx cy cDir st n) := by
  rcases processNeighbor_cases ctx cx cy cDir st n with h | ⟨nx, ny, f, tg, mp, hb, h⟩
  · rw [h]
    exact hinv
  · obtain ⟨h1, h2, h3⟩ := hinv
    rw [h]
    refine ⟨?_, ?_, ?_⟩
    · intro k hk
      dsimp only at hk
      by_cases hke : k = (nx, ny)
      · subst hke
        intro obs hobs hin
        have hp : ((isInside obs (gridPoint ctx nx ny) || isInside obs mp) &&
            !(decide (manhattanDist (gridPoint ctx nx ny) ctx.pStart < 5) ||
              decide (manhattanDist (gridPoint ctx nx ny) ctx.pEnd < 5))) = false := by
          have hb2 := hb
          unfold blockedAt at hb2
          exact Bool.eq_false_iff.mpr ((List.any_eq_false.mp hb2) obs hobs)
        rw [hin] at hp
        simp at hp
        by_cases h5 : manhattanDist (gridPoint ctx nx ny) ctx.pStart < 5
        · exact Or.inl h5
        · exact Or.inr (hp (not_lt.mp h5))
      · rw [if_neg hke] at hk
        exact h1 k hk
    · intro k v hk
      dsimp only at hk ⊢
      by_cases hke : k = (nx, ny)
      · rw [if_pos hke] at hk
        injection hk with hk
        subst hk
        rcases hc with hsome | hsc
        · left
          by_cases hce : ((cx, cy) : ℕ × ℕ) = (nx, ny)
          · rw [if_pos hce]
            rfl
          · rw [if_neg hce]
            exact hsome
        · exact Or.inr hsc
      · rw [if_neg hke] at hk
        rcases h2 k v hk with hsome | hsc
        · left
          by_cases hve : v = (nx, ny)
          · rw [if_pos hve]
            rfl
          · rw [if_neg hve]
            exact hsome
        · exact Or.inr hsc
    · intro e he
      dsimp only at he ⊢
      rcases List.mem_append.mp he with hold | hnew
      · rcases h3 e hold with hsome | hsc
        · left
          by_cases hee : ((e.x, e.y) : ℕ × ℕ) = (nx, ny)
          · rw [if_pos hee]
            rfl
          · rw [if_neg hee]
            exact hsome
        · exact Or.inr hsc
      · have he2 : e = ⟨nx, ny, f, n.2.2⟩ := by simpa using hnew
        subst he2
        left
        dsimp only
        rw [if_pos rfl]
        rfl

/-- Folding neighbour processing over a neighbour list preserves the
invariant. -/
theorem foldl_processNeighbor_inv (ctx : RouteCtx) (sc : ℕ × ℕ) (cx cy cDir : ℕ) :
    ∀ (ns : List (ℤ × ℤ × ℕ)) (st : SearchState), InvC1 ctx sc st →
    ((st.cameFrom (cx, cy)).isSome = true ∨ ((cx, cy) : ℕ × ℕ) = sc) →
    InvC1 ctx sc (ns.foldl (processNeighbor ctx cx cy cDir) st) := by
  intro ns
  induction ns with
  | nil => intro st hinv _; exact hinv
  | cons n ns ih =>
    intro st hinv hc
    refine ih _ (processNeighbor_inv ctx sc cx cy cDir st n hinv hc) ?_
    rcases hc with hsome | hsc
    · exact Or.inl (processNeighbor_cameFrom_mono ctx cx cy cDir st n _ hsome)
    · exact Or.inr hsc

/-- When the search succeeds, the returned predecessor map satisfies the
invariant components, and the goal cell has a predecessor or is the start
cell. -/
theorem aStarLoop_inv (ctx : RouteCtx) (sc : ℕ × ℕ) :
    ∀ (fuel : ℕ) (st : SearchState), InvC1 ctx sc st →
    ∀ cf, aStarLoop ctx fuel st = some cf →
      (∀ k, (cf k).isSome = true → cellOK ctx k) ∧
      (∀ k v, cf k = some v → (cf v).isSome = true ∨ v = sc) ∧
      ((cf (ctx.endX, ctx.endY)).isSome = true ∨ ((ctx.endX, ctx.endY) : ℕ × ℕ) = sc) := by
  intro fuel
  induction fuel with
  | zero =>
    intro st _ cf h
    simp [aStarLoop] at h
  | succ fuel ih =>
    intro st hinv cf h
    rw [aStarLoop] at h
    cases hms : st.openSet.insertionSort (fun a b => a.f ≤ b.f) with
    | nil =>
      rw [hms] at h
      exact absurd h (by simp)
    | cons c rest =>
      rw [hms] at h
      dsimp only at h
      have hcmem : c ∈ st.openSet := by
        have hperm := List.perm_insertionSort
          (fun (a b : OpenEntry) => a.f ≤ b.f) st.openSet
        exact hperm.mem_iff.mp (hms ▸ List.mem_cons_self c rest)
      by_cases hend : c.x = ctx.endX ∧ c.y = ctx.endY
      · rw [if_pos hend] at h
        injection h with h
        subst h
        obtain ⟨h1, h2, h3⟩ := hinv
        refine ⟨h1, h2, ?_⟩
        have hc := h3 c hcmem
        rwa [hend.1, hend.2] at hc
      · rw [if_neg hend] at h
        have hst1 : InvC1 ctx sc { st with openSet := rest } := by
          obtain ⟨h1, h2, h3⟩ := hinv
          refine ⟨h1, h2, ?_⟩
          intro e he
          apply h3
          have hperm := List.perm_insertionSort
            (fun (a b : OpenEntry) => a.f ≤ b.f) st.openSet
          exact hperm.mem_iff.mp (hms ▸ List.mem_cons_of_mem c he)
        exact ih _ (foldl_processNeighbor_inv ctx sc c.x c.y c.dir _ _ hst1
          (hinv.2.2 c hcmem)) cf h

/-- Every cell visited by the reconstruction loop has a predecessor or is the
start cell. -/
theorem reconstruct_status (cf : ℕ × ℕ → Option (ℕ × ℕ)) (sc : ℕ × ℕ)
    (h2 : ∀ k v, cf k = some v → (cf v).isSome = true ∨ v = sc) :
    ∀ (fuel : ℕ) (k : ℕ × ℕ), ((cf k).isSome = true ∨ k = sc) →
      ∀ j ∈ reconstruct cf fuel k, (cf j).isSome = true ∨ j = sc := by
  intro fuel
  induction fuel with
  | zero =>
    intro k _ j hj
    simp [reconstruct] at hj
  | succ fuel ih =>
    intro k hk j hj
    rw [reconstruct] at hj
    rcases List.mem_cons.mp hj with rfl | hj2
    · exact hk
    · cases hcf : cf k with
      | none =>
        rw [hcf] at hj2
        simp at hj2
      | some p =>
        rw [hcf] at hj2
        exact ih p (h2 k p hcf) j hj2

/-- The running minimum of the closest-scan is a lower bound for the initial
difference and for the difference of every remaining entry. -/
theorem findClosestAuxP_le (val : ℚ) :
    ∀ (rest : List ℤ) (i : ℕ) (d : ℚ) (idx : ℕ),
      (findClosestAuxP val rest i d idx).2 ≤ d ∧
      ∀ a ∈ rest, (findClosestAuxP val rest i d idx).2 ≤ |((a : ℤ) : ℚ) - val| := by
  intro rest
  induction rest with
  | nil =>
    intro i d idx
    exact ⟨le_refl d, by simp⟩
  | cons a rest ih =>
    intro i d idx
    by_cases h : |((a : ℤ) : ℚ) - val| < d
    · simp only [findClosestAuxP]
      rw [if_pos h]
      constructor
      · exact le_trans (ih (i + 1) _ i).1 (le_of_lt h)
      · intro b hb
        rcases List.mem_cons.mp hb with rfl | hb2
        · exact (ih (i + 1) _ i).1
        · exact (ih (i + 1) _ i).2 b hb2
    · simp only [findClosestAuxP]
      rw [if_neg h]
      constructor
      · exact (ih (i + 1) d idx).1
      · intro b hb
        rcases List.mem_cons.mp hb with rfl | hb2
        · exact le_trans (ih (i + 1) d idx).1 (not_lt.mp h)
        · exact (ih (i + 1) d idx).2 b hb2

/-- The closest-scan returns either the incoming best pair or an index into
the remaining entries together with that entry's difference. -/
theorem findClosestAuxP_spec (val : ℚ) :
    ∀ (rest : List ℤ) (i : ℕ) (d : ℚ) (idx : ℕ),
      findClosestAuxP val rest i d idx = (idx, d) ∨
      ∃ j, j < rest.length ∧
        findClosestAuxP val rest i d idx = (i + j, |((rest.getD j 0 : ℤ) : ℚ) - val|) := by
  intro rest
  induction rest with
  | nil =>
    intro i d idx
    exact Or.inl rfl
  | cons a rest ih =>
    intro i d idx
    by_cases h : |((a : ℤ) : ℚ) - val| < d
    · simp only [findClosestAuxP]
      rw [if_pos h]
      rcases ih (i + 1) |((a : ℤ) : ℚ) - val| i with h1 | ⟨j, hj, h1⟩
      · right
        refine ⟨0, by simp, ?_⟩
        rw [h1]
        simp
      · right
        refine ⟨j + 1, by simpa using Nat.succ_lt_succ hj, ?_⟩
        rw [h1, show i + 1 + j = i + (j + 1) from by omega]
        rfl
    · simp only [findClosestAuxP]
      rw [if_neg h]
      rcases ih (i + 1) d idx with h1 | ⟨j, hj, h1⟩
      · exact Or.inl h1
      · right
        refine ⟨j + 1, by simpa using Nat.succ_lt_succ hj, ?_⟩
        rw [h1, show i + 1 + j = i + (j + 1) from by omega]
        rfl

/-- The grid value selected by `findClosest` differs from the key by at most
as much as any entry of the array. -/
theorem findClosest_getD (val : ℚ) (arr : List ℤ) (a : ℤ) (ha : a ∈ arr) :
    |((arr.getD (findClosest val arr) 0 : ℤ) : ℚ) - val| ≤ |((a : ℤ) : ℚ) - val| := by
  cases arr with
  | nil => simp at ha
  | cons b rest =>
    unfold findClosest
    have hle := findClosestAuxP_le val rest 1 |((b : ℤ) : ℚ) - val| 0
    have hval : |(((b :: rest).getD
          (findClosestAuxP val rest 1 |((b : ℤ) : ℚ) - val| 0).1 0 : ℤ) : ℚ) - val| =
        (findClosestAuxP val rest 1 |((b : ℤ) : ℚ) - val| 0).2 := by
      rcases findClosestAuxP_spec val rest 1 |((b : ℤ) : ℚ) - val| 0 with h1 | ⟨j, hj, h1⟩
      · rw [h1]
        rfl
      · rw [h1, show (1 : ℕ) + j = j + 1 from by omega]
        rfl
    rw [hval]
    rcases List.mem_cons.mp ha with rfl | ha2
    · exact hle.1
    · exact hle.2 a ha2

/-- JavaScript rounding moves a value by at most one half. -/
theorem jsRound_close (q : ℚ) : |((jsRound q : ℤ) : ℚ) - q| ≤ 1/2 := by
  unfold jsRound
  rw [abs_le]
  constructor
  · have h := Int.lt_floor_add_one (q + 1/2)
    push_cast at h ⊢
    linarith
  · have h := Int.floor_le (q + 1/2)
    push_cast at h ⊢
    linarith

/-- The rounded outset start x-coordinate is a grid column. -/
theorem jsRound_pStart_mem_routeXs (start endp : Vec2) (obstacles : List Obstacle)
    (buffer : ℚ) :
    jsRound (routePStart start).x ∈ routeXs start endp obstacles buffer := by
  simp only [routeXs]
  refine (List.perm_insertionSort _ _).mem_iff.mpr ?_
  rw [List.mem_dedup]
  exact List.mem_map_of_mem jsRound (by simp)

/-- The rounded outset start y-coordinate is a grid row. -/
theorem jsRound_pStart_mem_routeYs (start endp : Vec2) (obstacles : List Obstacle)
    (buffer : ℚ) :
    jsRound (routePStart start).y ∈ routeYs start endp obstacles buffer := by
  simp only [routeYs]
  refine (List.perm_insertionSort _ _).mem_iff.mpr ?_
  rw [List.mem_dedup]
  exact List.mem_map_of_mem jsRound (by simp)

/-- The snapped start cell lies within manhattan distance 1 of the outset
start anchor. -/
theorem startCell_near (start endp : Vec2) (obstacles : List Obstacle) (buffer : ℚ) :
    manhattanDist
      (gridPoint (routeCtx start endp obstacles buffer)
        (routeStartCell start endp obstacles buffer).1
        (routeStartCell start endp obstacles buffer).2)
      (routePStart start) ≤ 1 := by
  have hx : |(((routeXs start endp obstacles buffer).getD
      (findClosest (routePStart start).x (routeXs start endp obstacles buffer)) 0 : ℤ) : ℚ) -
      (routePStart start).x| ≤ 1/2 :=
    le_trans
      (findClosest_getD (routePStart start).x (routeXs start endp obstacles buffer)
        (jsRound (routePStart start).x)
        (jsRound_pStart_mem_routeXs start endp obstacles buffer))
      (jsRound_close (routePStart start).x)
  have hy : |(((routeYs start endp obstacles buffer).getD
      (findClosest (routePStart start).y (routeYs start endp obstacles buffer)) 0 : ℤ) : ℚ) -
      (routePStart start).y| ≤ 1/2 :=
    le_trans
      (findClosest_getD (routePStart start).y (routeYs start endp obstacles buffer)
        (jsRound (routePStart start).y)
        (jsRound_pStart_mem_routeYs start endp obstacles buffer))
      (jsRound_close (routePStart start).y)
  show |_ - _| + |_ - _| ≤ 1
  simp only [routeCtx, routeStartCell, gridPoint] at hx hy ⊢
  linarith

/-- Interior points of the simplification-loop output come from interior
points of its input. -/
theorem simplifyLoop_dropLast_subset : ∀ (l : List Vec2) (prev p : Vec2),
    p ∈ (simplifyLoop prev l).dropLast → p ∈ l.dropLast := by
  intro l
  induction l with
  | nil =>
    intro prev p hp
    simp [simplifyLoop] at hp
  | cons c tail ih =>
    intro prev p hp
    cases tail with
    | nil => simp [simplifyLoop] at hp
    | cons c2 rest =>
      by_cases hcol : isColinear prev c c2 = true
      · rw [show simplifyLoop prev (c :: c2 :: rest) = simplifyLoop prev (c2 :: rest) by
          simp [simplifyLoop, hcol]] at hp
        have h2 := ih prev p hp
        rw [List.dropLast_cons₂]
        exact List.mem_cons_of_mem c h2
      · rw [show simplifyLoop prev (c :: c2 :: rest) = c :: simplifyLoop c (c2 :: rest) by
          simp [simplifyLoop, hcol]] at hp
        have hne := simplifyLoop_ne_nil (c2 :: rest) c (by simp)
        obtain ⟨r, R2, hr⟩ := List.exists_cons_of_ne_nil hne
        rw [hr, List.dropLast_cons₂] at hp
        rw [List.dropLast_cons₂]
        rcases List.mem_cons.mp hp with rfl | hp2
        · exact List.mem_cons_self p ((c2 :: rest).dropLast)
        · rw [← hr] at hp2
          exact List.mem_cons_of_mem c (ih c p hp2)

/-- Claim C1: no interior point of a returned path lies strictly inside an
obstacle rectangle unless it is within 5 units (manhattan) of one of the two
outset anchors (the docking exemption). -/
theorem getSmartOrthogonalPath_interior_avoids_obstacles
    (fuel : ℕ) (start endp : Vec2) (obstacles : List Obstacle) (buffer : ℚ) (p : Vec2)
    (hp : p ∈ ((getSmartOrthogonalPath fuel start endp obstacles buffer).drop 1).dropLast)
    (obs : Obstacle) (hobs : obs ∈ obstacles) (hin : strictlyInside obs p) :
    manhattanDist p (routePStart start) < 5 ∨ manhattanDist p (routePEnd endp) < 5 := by
  by_cases hdeg : |(routePStart start).x - (routePEnd endp).x| < 1 ∧
      |(routePStart start).y - (routePEnd endp).y| < 1
  · have hpath : getSmartOrthogonalPath fuel start endp obstacles buffer =
        [⟨start.x, start.y⟩, ⟨endp.x, endp.y⟩] := by
      simp only [getSmartOrthogonalPath]
      rw [if_pos hdeg]
    rw [hpath] at hp
    simp at hp
  · cases hres : aStarLoop (routeCtx start endp obstacles buffer) fuel
        (routeInitState start endp obstacles buffer) with
    | none =>
      have hpath : getSmartOrthogonalPath fuel start endp obstacles buffer =
          [⟨start.x, start.y⟩, ⟨endp.x, endp.y⟩] := by
        simp only [getSmartOrthogonalPath, hres]
        rw [if_neg hdeg]
      rw [hpath] at hp
      simp at hp
    | some cf =>
      have hpath : getSmartOrthogonalPath fuel start endp obstacles buffer =
          simplifyPath ([⟨start.x, start.y⟩] ++
            ((reconstruct cf fuel ((routeCtx start endp obstacles buffer).endX,
              (routeCtx start endp obstacles buffer).endY)).reverse).map
              (fun k => gridPoint (routeCtx start endp obstacles buffer) k.1 k.2) ++
            [⟨endp.x, endp.y⟩]) := by
        simp only [getSmartOrthogonalPath, hres]
        rw [if_neg hdeg]
      rw [hpath] at hp
      cases hm : ((reconstruct cf fuel ((routeCtx start endp obstacles buffer).endX,
          (routeCtx start endp obstacles buffer).endY)).reverse).map
          (fun k => gridPoint (routeCtx start endp obstacles buffer) k.1 k.2) with
      | nil =>
        rw [hm] at hp
        simp [simplifyPath] at hp
      | cons m mid2 =>
        rw [hm] at hp
        have hlen : 2 < ([⟨start.x, start.y⟩] ++ (m :: mid2) ++ [⟨endp.x, endp.y⟩] :
            List Vec2).length := by
          simp only [List.length_append, List.length_cons, List.length_nil]
          omega
        have h1 : simplifyPath ([⟨start.x, start.y⟩] ++ (m :: mid2) ++
            [⟨endp.x, endp.y⟩] : List Vec2) =
            ⟨start.x, start.y⟩ :: simplifyLoop ⟨start.x, start.y⟩
              ((m :: mid2) ++ [⟨endp.x, endp.y⟩]) := by
          unfold simplifyPath
          rw [if_pos hlen]
          rfl
        rw [h1] at hp
        simp only [List.drop_succ_cons, List.drop_zero] at hp
        have hp2 := simplifyLoop_dropLast_subset ((m :: mid2) ++ [⟨endp.x, endp.y⟩])
          ⟨start.x, start.y⟩ p hp
        rw [List.dropLast_concat] at hp2
        rw [← hm] at hp2
        obtain ⟨k, hkmem, hkp⟩ := List.mem_map.mp hp2
        rw [List.mem_reverse] at hkmem
        have hinv0 : InvC1 (routeCtx start endp obstacles buffer)
            (routeStartCell start endp obstacles buffer)
            (routeInitState start endp obstacles buffer) := by
          refine ⟨?_, ?_, ?_⟩
          · intro k2 hk2
            simp [routeInitState] at hk2
          · intro k2 v hk2
            simp [routeInitState] at hk2
          · intro e he
            simp only [routeInitState, List.mem_singleton] at he
            subst he
            exact Or.inr rfl
        have hI := aStarLoop_inv (routeCtx start endp obstacles buffer)
          (routeStartCell start endp obstacles buffer) fuel
          (routeInitState start endp obstacles buffer) hinv0 cf hres
        have hstat := reconstruct_status cf (routeStartCell start endp obstacles buffer)
          hI.2.1 fuel ((routeCtx start endp obstacles buffer).endX,
            (routeCtx start endp obstacles buffer).endY) hI.2.2 k hkmem
        rcases hstat with hsome | hsc
        · have hok := hI.1 k hsome
          have hin2 : isInside obs
              (gridPoint (routeCtx start endp obstacles buffer) k.1 k.2) = true := by
            rw [hkp]
            exact isInside_of_strictlyInside hin
          have hres2 := hok obs hobs hin2
          rw [hkp] at hres2
          exact hres2
        · left
          have hnear := startCell_near start endp obstacles buffer
          rw [hsc] at hkp
          rw [← hkp]
          exact lt_of_le_of_lt hnear (by norm_num)

section
attribute [local semireducible] Rat.sub Rat.add Rat.mul Rat.inv

/-- Witness for C1 at a concrete route whose interior contains a point
strictly inside an obstacle: the docking exemption applies to it. -/
theorem getSmartOrthogonalPath_interior_avoids_obstacles_witness :
    manhattanDist ⟨20, 0⟩ (routePStart ⟨0, 0⟩) < 5 ∨
    manhattanDist ⟨20, 0⟩ (routePEnd ⟨40, -50⟩) < 5 :=
  getSmartOrthogonalPath_interior_avoids_obstacles 200 ⟨0, 0⟩ ⟨40, -50⟩
    [⟨⟨15, -5⟩, ⟨25, 5⟩⟩] 20 ⟨20, 0⟩ (by decide) ⟨⟨15, -5⟩, ⟨25, 5⟩⟩ (by decide) (by decide)

end
